import Mathlib

/-!
Shallow embedding of src/single-linked-list/single-linked-list.h.

The C++ template class SingleLinkedList<Type> owns a chain of heap nodes.
We model the C++ free store explicitly: a Mem value holds the association
list of currently allocated nodes (newest entry first; an update shadows
the previous entry, deallocation removes every entry at that address) and
a counter producing fresh addresses, so addresses are never reused.

A list object is the record of the data members of SingleLinkedList:
the successor field of the embedded sentinel head_ (head_next, none being
nullptr), the tail pointer last, and size_.  The C++ member Node* last has
no initializer and the default constructor does not assign it, so reading
it before the first assignment is undefined behavior; the model keeps a
ghost flag last_init that is false exactly while last is indeterminate,
and every operation that would read an indeterminate or dangling pointer
returns none (the model of undefined behavior).

Machine integers: size_ is a size_t only ever incremented from zero and
assigned, so it is modelled as Nat.  Element values are a type parameter
with decidable equality, matching the template parameter Type.
-/

/-- Heap addresses handed out by the new expressions in the C++ code. -/
abbrev Ptr := Nat

/-- struct Node: the stored value and the raw successor pointer next_node
(none models nullptr). -/
structure Node (α : Type) where
  value : α
  next_node : Option Ptr
deriving DecidableEq

/-- The free store: allocated nodes keyed by address, newest entry first,
plus the next fresh address. -/
structure Mem (α : Type) where
  heap : List (Ptr × Node α)
  fresh : Ptr
deriving DecidableEq

/-- Read the node at an address: the newest entry for that key, none when
the address is unallocated (a dangling or null dereference). -/
def heapGet {α : Type} : List (Ptr × Node α) → Ptr → Option (Node α)
  | [], _ => none
  | (q, nd) :: t, p => if q = p then some nd else heapGet t p

/-- Store a node at an address; the new entry shadows any older one. -/
def heapSet {α : Type} (h : List (Ptr × Node α)) (p : Ptr) (nd : Node α) :
    List (Ptr × Node α) :=
  (p, nd) :: h

/-- Deallocate (delete) the node at an address: every entry for that key
is dropped, so a later read of the address fails. -/
def heapRemove {α : Type} (h : List (Ptr × Node α)) (p : Ptr) :
    List (Ptr × Node α) :=
  h.filter (fun e => e.1 != p)

/-- BasicIterator: the value of its single data member Node* node_.
null is nullptr (the end iterator and the default-constructed iterator);
sentinel is the address of the head_ node embedded in the list object
under consideration; node p is the heap node at address p. -/
inductive BasicIterator where
  | null : BasicIterator
  | sentinel : BasicIterator
  | node : Ptr → BasicIterator
deriving DecidableEq

/-- Wrap a raw successor pointer as an iterator, as Iterator does with a
Node* in the C++ code. -/
def BasicIterator.ofPtr : Option Ptr → BasicIterator
  | none => BasicIterator.null
  | some p => BasicIterator.node p

/-- BasicIterator::operator== compares the node_ pointers of the two
iterators and nothing else. -/
def iterEq : BasicIterator → BasicIterator → Bool
  | BasicIterator.null, BasicIterator.null => true
  | BasicIterator.sentinel, BasicIterator.sentinel => true
  | BasicIterator.node p, BasicIterator.node q => p == q
  | _, _ => false

/-- The default-constructed BasicIterator: node_ has the member
initializer nullptr. -/
def iteratorDefault : BasicIterator := BasicIterator.null

/-- The data members of SingleLinkedList: head_ is the embedded sentinel
node, of which only the successor field head_.next_node is meaningful;
last is the tail pointer with its ghost definedness flag; size_ is the
element counter. -/
structure SingleLinkedList where
  head_next : Option Ptr
  last : Option Ptr
  last_init : Bool
  size_ : Nat
deriving DecidableEq

namespace SingleLinkedList

/-- The default constructor: it initializes size_ to 0; head_ is value
initialized, so head_.next_node is nullptr; the member last is left
without an initializer, hence indeterminate (last_init = false). -/
def new : SingleLinkedList :=
  { head_next := none, last := none, last_init := false, size_ := 0 }

/-- GetSize returns size_. -/
def GetSize (l : SingleLinkedList) : Nat := l.size_

/-- IsEmpty returns !size_. -/
def IsEmpty (l : SingleLinkedList) : Bool := l.size_ == 0

/-- Read pos.node_->next_node through an iterator: dereferencing the null
iterator is undefined behavior (none); the sentinel iterator reads
head_.next_node of the list; a node iterator reads the heap. -/
def readNext {α : Type} (h : List (Ptr × Node α)) (l : SingleLinkedList) :
    BasicIterator → Option (Option Ptr)
  | BasicIterator.null => none
  | BasicIterator.sentinel => some l.head_next
  | BasicIterator.node p => (heapGet h p).map Node.next_node

/-- Write pos.node_->next_node through an iterator, with the same
undefined-behavior cases as readNext. -/
def writeNext {α : Type} (h : List (Ptr × Node α)) (l : SingleLinkedList)
    (pos : BasicIterator) (nxt : Option Ptr) :
    Option (List (Ptr × Node α) × SingleLinkedList) :=
  match pos with
  | BasicIterator.null => none
  | BasicIterator.sentinel => some (h, { l with head_next := nxt })
  | BasicIterator.node p =>
    match heapGet h p with
    | none => none
    | some nd => some (heapSet h p { nd with next_node := nxt }, l)

/-- begin returns Iterator of head_.next_node. -/
def begin (l : SingleLinkedList) : BasicIterator :=
  BasicIterator.ofPtr l.head_next

/-- end returns Iterator of nullptr. -/
def end_ (_ : SingleLinkedList) : BasicIterator := BasicIterator.null

/-- cbegin returns ConstIterator of head_.next_node. -/
def cbegin (l : SingleLinkedList) : BasicIterator := begin l

/-- cend returns ConstIterator of nullptr. -/
def cend (l : SingleLinkedList) : BasicIterator := end_ l

/-- before_begin returns an iterator holding the address of head_. -/
def before_begin (_ : SingleLinkedList) : BasicIterator :=
  BasicIterator.sentinel

/-- cbefore_begin returns the same sentinel iterator. -/
def cbefore_begin (l : SingleLinkedList) : BasicIterator := before_begin l

/-- SetFirstNode: head_.next_node = new Node(value, head_.next_node);
last = head_.next_node; ++size_. -/
def SetFirstNode {α : Type} (m : Mem α) (l : SingleLinkedList) (value : α) :
    Mem α × SingleLinkedList :=
  let p := m.fresh
  (⟨heapSet m.heap p ⟨value, l.head_next⟩, p + 1⟩,
   { head_next := some p, last := some p, last_init := true,
     size_ := l.size_ + 1 })

/-- PushFront: on an empty list delegate to SetFirstNode, otherwise
allocate a node in front of the current head and increment size_
(the tail pointer is not touched). -/
def PushFront {α : Type} (m : Mem α) (l : SingleLinkedList) (value : α) :
    Mem α × SingleLinkedList :=
  if IsEmpty l then SetFirstNode m l value
  else
    let p := m.fresh
    (⟨heapSet m.heap p ⟨value, l.head_next⟩, p + 1⟩,
     { l with head_next := some p, size_ := l.size_ + 1 })

/-- PushBack: on an empty list delegate to SetFirstNode; otherwise read
the tail pointer last (undefined behavior if it is indeterminate, null or
dangling), link a fresh node with null successor after it, move last to
the new node and increment size_. -/
def PushBack {α : Type} (m : Mem α) (l : SingleLinkedList) (value : α) :
    Option (Mem α × SingleLinkedList) :=
  if IsEmpty l then some (SetFirstNode m l value)
  else if l.last_init = false then none
  else
    match l.last with
    | none => none
    | some q =>
      match heapGet m.heap q with
      | none => none
      | some nd =>
        let p := m.fresh
        some (⟨heapSet (heapSet m.heap p ⟨value, none⟩) q
                 { nd with next_node := some p }, p + 1⟩,
              { l with last := some p, size_ := l.size_ + 1 })

/-- InsertAfter: new_node = new Node(value, pos.node_->next_node);
pos.node_->next_node = new_node; ++size_; returns Iterator of new_node.
The tail pointer is not touched. -/
def InsertAfter {α : Type} (m : Mem α) (l : SingleLinkedList)
    (pos : BasicIterator) (value : α) :
    Option (Mem α × SingleLinkedList × BasicIterator) :=
  match readNext m.heap l pos with
  | none => none
  | some nxt =>
    let p := m.fresh
    match writeNext (heapSet m.heap p ⟨value, nxt⟩) l pos (some p) with
    | none => none
    | some (h2, l2) =>
      some (⟨h2, p + 1⟩, { l2 with size_ := l2.size_ + 1 },
            BasicIterator.node p)

/-- PopFront: asserts head_.next_node != nullptr, saves its successor,
deletes the head node and relinks head_.next_node to the saved successor.
Neither size_ nor the tail pointer last is updated. -/
def PopFront {α : Type} (m : Mem α) (l : SingleLinkedList) :
    Option (Mem α × SingleLinkedList) :=
  match l.head_next with
  | none => none
  | some hd =>
    match heapGet m.heap hd with
    | none => none
    | some nd =>
      some (⟨heapRemove m.heap hd, m.fresh⟩,
            { l with head_next := nd.next_node })

/-- EraseAfter: asserts pos.node_->next_node != nullptr, saves the second
successor, deletes the first successor, relinks pos.node_->next_node, and
returns Iterator of the relinked successor.  Neither size_ nor the tail
pointer last is updated. -/
def EraseAfter {α : Type} (m : Mem α) (l : SingleLinkedList)
    (pos : BasicIterator) :
    Option (Mem α × SingleLinkedList × BasicIterator) :=
  match readNext m.heap l pos with
  | none => none
  | some none => none
  | some (some d) =>
    match heapGet m.heap d with
    | none => none
    | some dn =>
      match writeNext (heapRemove m.heap d) l pos dn.next_node with
      | none => none
      | some (h2, l2) =>
        match readNext h2 l2 pos with
        | none => none
        | some r => some (⟨h2, m.fresh⟩, l2, BasicIterator.ofPtr r)

/-- The recursion of Clear, with fuel bounding the number of deletions:
while head_.next_node is not null, delete the head node and recurse; on
the empty chain set size_ to 0 and last to nullptr. -/
def ClearGo {α : Type} : Nat → Mem α → SingleLinkedList →
    Option (Mem α × SingleLinkedList)
  | fuel, m, l =>
    match l.head_next, fuel with
    | none, _ => some (m, { l with size_ := 0, last := none, last_init := true })
    | some _, 0 => none
    | some hd, fuel' + 1 =>
      match heapGet m.heap hd with
      | none => none
      | some nd =>
        ClearGo fuel' ⟨heapRemove m.heap hd, m.fresh⟩
          { l with head_next := nd.next_node }

/-- Clear with fuel equal to the heap size, which bounds any terminating
chain. -/
def Clear {α : Type} (m : Mem α) (l : SingleLinkedList) :
    Option (Mem α × SingleLinkedList) :=
  ClearGo m.heap.length m l

/-- swap exchanges size_ and head_.next_node of the two lists via
std::swap; the tail pointers last are not exchanged and no node is
allocated, copied or freed (the heap is not even consulted). -/
def swap (a b : SingleLinkedList) : SingleLinkedList × SingleLinkedList :=
  ({ a with size_ := b.size_, head_next := b.head_next },
   { b with size_ := a.size_, head_next := a.head_next })

/-- SetSingleLinkedList: a range-for over the container calling PushBack
on each element in order. -/
def SetSingleLinkedList {α : Type} (m : Mem α) (l : SingleLinkedList) :
    List α → Option (Mem α × SingleLinkedList)
  | [] => some (m, l)
  | v :: vs =>
    match PushBack m l v with
    | none => none
    | some (m', l') => SetSingleLinkedList m' l' vs

/-- The initializer-list constructor: default construction followed by
SetSingleLinkedList over the values in order. -/
def ofList {α : Type} (m : Mem α) (values : List α) :
    Option (Mem α × SingleLinkedList) :=
  SetSingleLinkedList m new values

/-- The loop of the copy constructor: traverse the chain of the source
list in the current heap, pushing each visited value onto the list under
construction; fuel bounds the traversal. -/
def copyGo {α : Type} : Nat → Mem α → SingleLinkedList → Option Ptr →
    Option (Mem α × SingleLinkedList)
  | _, m, l, none => some (m, l)
  | 0, _, _, some _ => none
  | fuel + 1, m, l, some p =>
    match heapGet m.heap p with
    | none => none
    | some nd =>
      match PushBack m l nd.value with
      | none => none
      | some (m', l') => copyGo fuel m' l' nd.next_node

/-- The copy constructor: default construction then SetSingleLinkedList
ranging over the source list, modelled by copyGo from the head of the
source chain. -/
def copyOf {α : Type} (m : Mem α) (src : SingleLinkedList) :
    Option (Mem α × SingleLinkedList) :=
  copyGo (m.heap.length + 1) m new src.head_next

/-- One step of iteration after begin: the traversal of the chain from a
raw pointer, collecting values until nullptr; fuel bounds the traversal,
and a dangling pointer or exhausted fuel is undefined behavior. -/
def toListAux {α : Type} (h : List (Ptr × Node α)) :
    Nat → Option Ptr → Option (List α)
  | _, none => some []
  | 0, some _ => none
  | fuel + 1, some p =>
    match heapGet h p with
    | none => none
    | some nd =>
      match toListAux h fuel nd.next_node with
      | none => none
      | some rest => some (nd.value :: rest)

/-- The element sequence produced by iterating from begin to end; the
fuel heap-size bound covers every terminating chain. -/
def toList {α : Type} (m : Mem α) (l : SingleLinkedList) : Option (List α) :=
  toListAux m.heap (m.heap.length + 1) l.head_next

/-- The lockstep loop of std::equal over (lhs.begin, lhs.end, rhs.begin,
rhs.end): both ranges exhausted means equal, one exhausted means unequal,
otherwise compare the two values and advance both cursors. -/
def stdEqualGo {α : Type} [DecidableEq α] (h : List (Ptr × Node α)) :
    Nat → Option Ptr → Option Ptr → Option Bool
  | _, none, none => some true
  | _, none, some _ => some false
  | _, some _, none => some false
  | 0, some _, some _ => none
  | fuel + 1, some p, some q =>
    match heapGet h p, heapGet h q with
    | some a, some b =>
      if a.value = b.value then stdEqualGo h fuel a.next_node b.next_node
      else some false
    | _, _ => none

/-- operator== on two lists: std::equal over the two iteration ranges. -/
def opEq {α : Type} [DecidableEq α] (m : Mem α) (a b : SingleLinkedList) :
    Option Bool :=
  stdEqualGo m.heap (m.heap.length + 1) a.head_next b.head_next

/-- The tail invariant stated by the spec: the tail pointer is
determinate and either null with the list empty, or the address of an
allocated node whose successor is null.  Any state in which the claimed
invariant holds satisfies this check. -/
def tailOk {α : Type} (m : Mem α) (l : SingleLinkedList) : Bool :=
  l.last_init &&
    match l.last with
    | none => IsEmpty l
    | some q =>
      match heapGet m.heap q with
      | none => false
      | some nd => nd.next_node == none

/-- The chain predicate: from the starting pointer, the successor fields
run through exactly the addresses ps, holding the values vs, and end in
null. -/
def isChain {α : Type} [DecidableEq α] (h : List (Ptr × Node α)) :
    Option Ptr → List Ptr → List α → Bool
  | p, [], [] => p == none
  | p, q :: qs, v :: vs =>
    decide (p = some q) &&
      (match heapGet h q with
       | none => false
       | some nd => decide (nd.value = v) && isChain h nd.next_node qs vs)
  | _, _, _ => false

/-- A valid list state, the validity notion every really constructible
list enjoys: a null-terminated chain of distinct allocated addresses ps
holding the values vs, all below the allocation counter, size_ equal to
the chain length, and, whenever the chain is nonempty, a determinate tail
pointer at the last chain address. -/
@[reducible] def ListRepr {α : Type} [DecidableEq α] (m : Mem α) (l : SingleLinkedList)
    (ps : List Ptr) (vs : List α) : Prop :=
  isChain m.heap l.head_next ps vs = true ∧
  (∀ q ∈ ps, q < m.fresh) ∧
  ps.Nodup ∧
  l.size_ = ps.length ∧
  (ps ≠ [] → l.last_init = true ∧ l.last = ps.getLast?)

end SingleLinkedList

open SingleLinkedList

/-- The free store of a freshly started program over Int elements. -/
def m0 : Mem Int := ⟨[], 0⟩

/-- A concrete free store with one allocated node: address 0 holds the
value 1 with null successor. -/
def mW : Mem Int := ⟨[(0, ⟨1, none⟩)], 1⟩

/-- The concrete one-element list over mW, used as a witness input. -/
def lW : SingleLinkedList :=
  { head_next := some 0, last := some 0, last_init := true, size_ := 1 }

theorem heapGet_set_self {α : Type} (h : List (Ptr × Node α)) (p : Ptr)
    (nd : Node α) : heapGet (heapSet h p nd) p = some nd := by
  simp [heapGet, heapSet]

theorem heapGet_set_ne {α : Type} (h : List (Ptr × Node α)) {p q : Ptr}
    (nd : Node α) (hne : q ≠ p) :
    heapGet (heapSet h p nd) q = heapGet h q := by
  simp only [heapGet, heapSet]
  rw [if_neg (Ne.symm hne)]

theorem heapGet_remove_ne {α : Type} (h : List (Ptr × Node α)) {p q : Ptr}
    (hne : q ≠ p) : heapGet (heapRemove h p) q = heapGet h q := by
  induction h with
  | nil => rfl
  | cons e t ih =>
    obtain ⟨r, nd⟩ := e
    simp only [heapRemove, List.filter_cons] at ih ⊢
    by_cases hr : r = p
    · subst hr
      rw [if_neg (by simp)]
      rw [ih]
      simp only [heapGet]
      rw [if_neg (Ne.symm hne)]
    · rw [if_pos (by simpa using hr)]
      simp only [heapGet]
      by_cases hq : r = q
      · rw [if_pos hq, if_pos hq]
      · rw [if_neg hq, if_neg hq, ih]

theorem mem_keys_of_heapGet {α : Type} :
    ∀ (h : List (Ptr × Node α)) (q : Ptr) (nd : Node α),
      heapGet h q = some nd → q ∈ h.map Prod.fst := by
  intro h
  induction h with
  | nil => intro q nd hq; simp [heapGet] at hq
  | cons e t ih =>
    obtain ⟨r, nd'⟩ := e
    intro q nd hq
    simp only [heapGet] at hq
    by_cases hr : r = q
    · subst hr; simp
    · rw [if_neg hr] at hq
      simpa using Or.inr (ih q nd hq)

theorem isChain_length {α : Type} [DecidableEq α] (h : List (Ptr × Node α)) :
    ∀ (ps : List Ptr) (p : Option Ptr) (vs : List α),
      isChain h p ps vs = true → ps.length = vs.length := by
  intro ps
  induction ps with
  | nil =>
    intro p vs hc
    cases vs with
    | nil => rfl
    | cons v vs => simp [isChain] at hc
  | cons q qs ih =>
    intro p vs hc
    cases vs with
    | nil => simp [isChain] at hc
    | cons v vs =>
      simp only [isChain, Bool.and_eq_true, decide_eq_true_eq] at hc
      obtain ⟨hp, hrest⟩ := hc
      cases hq : heapGet h q with
      | none => rw [hq] at hrest; simp at hrest
      | some nd =>
        rw [hq] at hrest
        simp only [Bool.and_eq_true, decide_eq_true_eq] at hrest
        simp [ih nd.next_node vs hrest.2]

theorem isChain_heapGet {α : Type} [DecidableEq α] (h : List (Ptr × Node α)) :
    ∀ (ps : List Ptr) (p : Option Ptr) (vs : List α),
      isChain h p ps vs = true → ∀ q ∈ ps, ∃ nd, heapGet h q = some nd := by
  intro ps
  induction ps with
  | nil => intro p vs _ q hq; simp at hq
  | cons r qs ih =>
    intro p vs hc q hq
    cases vs with
    | nil => simp [isChain] at hc
    | cons v vs =>
      simp only [isChain, Bool.and_eq_true, decide_eq_true_eq] at hc
      obtain ⟨hp, hrest⟩ := hc
      cases hr : heapGet h r with
      | none => rw [hr] at hrest; simp at hrest
      | some nd =>
        rw [hr] at hrest
        simp only [Bool.and_eq_true, decide_eq_true_eq] at hrest
        rcases List.mem_cons.mp hq with hqr | hqs
        · subst hqr; exact ⟨nd, hr⟩
        · exact ih nd.next_node vs hrest.2 q hqs

theorem isChain_congr {α : Type} [DecidableEq α]
    (h h' : List (Ptr × Node α)) :
    ∀ (ps : List Ptr) (p : Option Ptr) (vs : List α),
      (∀ q ∈ ps, heapGet h' q = heapGet h q) →
      isChain h p ps vs = true → isChain h' p ps vs = true := by
  intro ps
  induction ps with
  | nil =>
    intro p vs _ hc
    cases vs with
    | nil => simpa [isChain] using hc
    | cons v vs => simp [isChain] at hc
  | cons r qs ih =>
    intro p vs hagree hc
    cases vs with
    | nil => simp [isChain] at hc
    | cons v vs =>
      simp only [isChain, Bool.and_eq_true, decide_eq_true_eq] at hc ⊢
      obtain ⟨hp, hrest⟩ := hc
      refine ⟨hp, ?_⟩
      cases hr : heapGet h r with
      | none => rw [hr] at hrest; simp at hrest
      | some nd =>
        rw [hr] at hrest
        rw [hagree r (List.mem_cons_self r qs), hr]
        simp only [Bool.and_eq_true, decide_eq_true_eq] at hrest ⊢
        exact ⟨hrest.1, ih nd.next_node vs
          (fun q hq => hagree q (List.mem_cons_of_mem r hq)) hrest.2⟩

theorem isChain_getLast {α : Type} [DecidableEq α]
    (h : List (Ptr × Node α)) :
    ∀ (ps : List Ptr) (p : Option Ptr) (vs : List α) (q : Ptr),
      isChain h p ps vs = true → ps.getLast? = some q →
      ∃ nd, heapGet h q = some nd ∧ nd.next_node = none := by
  intro ps
  induction ps with
  | nil => intro p vs q _ hlast; simp at hlast
  | cons r qs ih =>
    intro p vs q hc hlast
    cases vs with
    | nil => simp [isChain] at hc
    | cons v vs =>
      simp only [isChain, Bool.and_eq_true, decide_eq_true_eq] at hc
      obtain ⟨hp, hrest⟩ := hc
      cases hr : heapGet h r with
      | none => rw [hr] at hrest; simp at hrest
      | some nd =>
        rw [hr] at hrest
        simp only [Bool.and_eq_true, decide_eq_true_eq] at hrest
        cases qs with
        | nil =>
          cases vs with
          | nil =>
            have hq : r = q := by simpa using hlast
            subst hq
            have hnone : nd.next_node = none := by
              simpa [isChain] using hrest.2
            exact ⟨nd, hr, hnone⟩
          | cons w ws => simp [isChain] at hrest
        | cons r' qs' =>
          have hlast' : (r' :: qs').getLast? = some q := by
            simpa [List.getLast?_cons_cons] using hlast
          exact ih nd.next_node vs q hrest.2 hlast'

theorem isChain_snoc {α : Type} [DecidableEq α]
    (h : List (Ptr × Node α)) (p : Ptr) (v : α) (q : Ptr) (ndq : Node α) :
    ∀ (ps : List Ptr) (start : Option Ptr) (vs : List α),
      isChain h start ps vs = true → ps.Nodup → p ∉ ps →
      ps.getLast? = some q → heapGet h q = some ndq →
      isChain
        (heapSet (heapSet h p ⟨v, none⟩) q { ndq with next_node := some p })
        start (ps ++ [p]) (vs ++ [v]) = true := by
  intro ps
  induction ps with
  | nil => intro start vs _ _ _ hlast _; simp at hlast
  | cons r qs ih =>
    intro start vs hc hnodup hp hlast hq
    cases vs with
    | nil => simp [isChain] at hc
    | cons w ws =>
      simp only [isChain, Bool.and_eq_true, decide_eq_true_eq] at hc
      obtain ⟨hstart, hrest⟩ := hc
      cases hr : heapGet h r with
      | none => rw [hr] at hrest; simp at hrest
      | some nd =>
        rw [hr] at hrest
        simp only [Bool.and_eq_true, decide_eq_true_eq] at hrest
        obtain ⟨hval, hchain⟩ := hrest
        have hpr : p ≠ r := fun e => hp (e ▸ List.mem_cons_self r qs)
        cases qs with
        | nil =>
          cases ws with
          | nil =>
            have hrq : r = q := by simpa using hlast
            subst hrq
            have hnd : nd = ndq := by rw [hr] at hq; exact Option.some.inj hq
            subst hnd
            simp only [List.cons_append, List.nil_append, isChain,
              Bool.and_eq_true, decide_eq_true_eq]
            refine ⟨hstart, ?_⟩
            rw [heapGet_set_self]
            simp only [Bool.and_eq_true, decide_eq_true_eq]
            refine ⟨hval, trivial, ?_⟩
            rw [heapGet_set_ne _ _ hpr, heapGet_set_self]
            simp
          | cons w' ws' => simp [isChain] at hchain
        | cons r' qs' =>
          have hlast' : (r' :: qs').getLast? = some q := by
            simpa [List.getLast?_cons_cons] using hlast
          have hqmem : q ∈ r' :: qs' := List.mem_of_mem_getLast? hlast'
          have hrq : r ≠ q := by
            intro e
            exact (List.nodup_cons.mp hnodup).1 (e ▸ hqmem)
          simp only [List.cons_append, isChain, Bool.and_eq_true,
            decide_eq_true_eq]
          refine ⟨hstart, ?_⟩
          rw [heapGet_set_ne _ _ hrq, heapGet_set_ne _ _ (Ne.symm hpr), hr]
          simp only [Bool.and_eq_true, decide_eq_true_eq]
          refine ⟨hval, ?_⟩
          exact ih nd.next_node ws hchain (List.nodup_cons.mp hnodup).2
            (fun hmem => hp (List.mem_cons_of_mem r hmem)) hlast' hq

theorem chain_length_le_heap {α : Type} [DecidableEq α]
    (h : List (Ptr × Node α)) (ps : List Ptr) (start : Option Ptr)
    (vs : List α) (hc : isChain h start ps vs = true) (hnodup : ps.Nodup) :
    ps.length ≤ h.length := by
  have hsub : ps ⊆ h.map Prod.fst := by
    intro q hq
    obtain ⟨nd, hnd⟩ := isChain_heapGet h ps start vs hc q hq
    exact mem_keys_of_heapGet h q nd hnd
  have := (List.subperm_of_subset hnodup hsub).length_le
  simpa using this

theorem toListAux_of_isChain {α : Type} [DecidableEq α]
    (h : List (Ptr × Node α)) :
    ∀ (ps : List Ptr) (fuel : Nat) (start : Option Ptr) (vs : List α),
      isChain h start ps vs = true → ps.length ≤ fuel →
      toListAux h fuel start = some vs := by
  intro ps
  induction ps with
  | nil =>
    intro fuel start vs hc _
    cases vs with
    | nil =>
      have hstart : start = none := by simpa [isChain] using hc
      subst hstart
      cases fuel with
      | zero => rfl
      | succ f => rfl
    | cons v vs => simp [isChain] at hc
  | cons r qs ih =>
    intro fuel start vs hc hfuel
    cases vs with
    | nil => simp [isChain] at hc
    | cons w ws =>
      simp only [isChain, Bool.and_eq_true, decide_eq_true_eq] at hc
      obtain ⟨hstart, hrest⟩ := hc
      cases hr : heapGet h r with
      | none => rw [hr] at hrest; simp at hrest
      | some nd =>
        rw [hr] at hrest
        simp only [Bool.and_eq_true, decide_eq_true_eq] at hrest
        obtain ⟨hval, hchain⟩ := hrest
        subst hstart
        cases fuel with
        | zero => exact absurd hfuel (by simp)
        | succ f =>
          have hrec := ih f nd.next_node ws hchain
            (Nat.le_of_succ_le_succ (by simpa using hfuel))
          simp only [toListAux, hr, hrec, hval]

theorem stdEqualGo_of_chains {α : Type} [DecidableEq α]
    (h : List (Ptr × Node α)) :
    ∀ (psA : List Ptr) (fuel : Nat) (pA pB : Option Ptr)
      (as bs : List α) (psB : List Ptr),
      isChain h pA psA as = true → isChain h pB psB bs = true →
      psA.length ≤ fuel →
      stdEqualGo h fuel pA pB = some (decide (as = bs)) := by
  intro psA
  induction psA with
  | nil =>
    intro fuel pA pB as bs psB hcA hcB hfuel
    cases as with
    | cons a as => simp [isChain] at hcA
    | nil =>
      have hpA : pA = none := by simpa [isChain] using hcA
      subst hpA
      cases psB with
      | nil =>
        cases bs with
        | nil =>
          have hpB : pB = none := by simpa [isChain] using hcB
          subst hpB
          cases fuel <;> simp [stdEqualGo]
        | cons b bs => simp [isChain] at hcB
      | cons r' qsB =>
        cases bs with
        | nil => simp [isChain] at hcB
        | cons b bs =>
          simp only [isChain, Bool.and_eq_true, decide_eq_true_eq] at hcB
          obtain ⟨hpB, _⟩ := hcB
          subst hpB
          cases fuel <;> simp [stdEqualGo]
  | cons r qsA ih =>
    intro fuel pA pB as bs psB hcA hcB hfuel
    cases as with
    | nil => simp [isChain] at hcA
    | cons a as =>
      simp only [isChain, Bool.and_eq_true, decide_eq_true_eq] at hcA
      obtain ⟨hpA, hrestA⟩ := hcA
      subst hpA
      cases hrA : heapGet h r with
      | none => rw [hrA] at hrestA; simp at hrestA
      | some ndA =>
        rw [hrA] at hrestA
        simp only [Bool.and_eq_true, decide_eq_true_eq] at hrestA
        obtain ⟨hvalA, hchainA⟩ := hrestA
        cases fuel with
        | zero => exact absurd hfuel (by simp)
        | succ f =>
          cases psB with
          | nil =>
            cases bs with
            | nil =>
              have hpB : pB = none := by simpa [isChain] using hcB
              subst hpB
              simp [stdEqualGo]
            | cons b bs => simp [isChain] at hcB
          | cons r' qsB =>
            cases bs with
            | nil => simp [isChain] at hcB
            | cons b bs =>
              simp only [isChain, Bool.and_eq_true, decide_eq_true_eq] at hcB
              obtain ⟨hpB, hrestB⟩ := hcB
              subst hpB
              cases hrB : heapGet h r' with
              | none => rw [hrB] at hrestB; simp at hrestB
              | some ndB =>
                rw [hrB] at hrestB
                simp only [Bool.and_eq_true, decide_eq_true_eq] at hrestB
                obtain ⟨hvalB, hchainB⟩ := hrestB
                have hrec := ih f ndA.next_node ndB.next_node as bs qsB
                  hchainA hchainB
                  (Nat.le_of_succ_le_succ (by simpa using hfuel))
                simp only [stdEqualGo, hrA, hrB, hvalA, hvalB]
                by_cases hab : a = b
                · subst hab
                  rw [if_pos rfl, hrec]
                  simp
                · rw [if_neg hab]
                  simp [hab]

theorem pushBack_listRepr {α : Type} [DecidableEq α] (m : Mem α)
    (l : SingleLinkedList) (v : α) (ps : List Ptr) (vs : List α)
    (hr : ListRepr m l ps vs) :
    ∃ m' l', PushBack m l v = some (m', l') ∧
      ListRepr m' l' (ps ++ [m.fresh]) (vs ++ [v]) ∧
      m'.fresh = m.fresh + 1 ∧
      (∀ r, r ∉ ps → r ≠ m.fresh → heapGet m'.heap r = heapGet m.heap r) := by
  obtain ⟨hc, hbound, hnodup, hsize, hlast⟩ := hr
  cases ps with
  | nil =>
    cases vs with
    | cons w ws => exact absurd hc (by simp [isChain])
    | nil =>
      have hhead : l.head_next = none := by simpa [isChain] using hc
      have hempty : l.IsEmpty = true := by simp [SingleLinkedList.IsEmpty, hsize]
      refine ⟨⟨heapSet m.heap m.fresh ⟨v, none⟩, m.fresh + 1⟩,
        { head_next := some m.fresh, last := some m.fresh,
          last_init := true, size_ := l.size_ + 1 }, ?_, ?_, rfl, ?_⟩
      · simp [PushBack, hempty, SetFirstNode, hhead]
      · refine ⟨?_, ?_, ?_, ?_, ?_⟩
        · simp [isChain, heapGet_set_self]
        · intro q hq
          simp only [List.nil_append, List.mem_singleton] at hq
          simp [hq]
        · simp
        · simp [hsize]
        · intro _
          exact ⟨rfl, by simp⟩
      · intro r _ hrne
        exact heapGet_set_ne _ _ hrne
  | cons r qs =>
    obtain ⟨hinit, hlasteq⟩ := hlast (by simp)
    cases hql : (r :: qs).getLast? with
    | none => simp at hql
    | some q =>
      obtain ⟨ndq, hndq, hndqnext⟩ :=
        isChain_getLast m.heap (r :: qs) l.head_next vs q hc hql
      have hnempty : l.IsEmpty = false := by simp [SingleLinkedList.IsEmpty, hsize]
      have hfreshnot : m.fresh ∉ r :: qs :=
        fun hmem => Nat.lt_irrefl _ (hbound _ hmem)
      have hqmem : q ∈ r :: qs := List.mem_of_mem_getLast? hql
      refine ⟨⟨heapSet (heapSet m.heap m.fresh ⟨v, none⟩) q
          { ndq with next_node := some m.fresh }, m.fresh + 1⟩,
        { l with last := some m.fresh, size_ := l.size_ + 1 },
        ?_, ?_, rfl, ?_⟩
      · rw [hql] at hlasteq
        simp [PushBack, hnempty, hinit, hlasteq, hndq]
      · refine ⟨?_, ?_, ?_, ?_, ?_⟩
        · exact isChain_snoc m.heap m.fresh v q ndq (r :: qs) l.head_next vs
            hc hnodup hfreshnot hql hndq
        · intro q' hq'
          rcases List.mem_append.mp hq' with hin | hin
          · exact Nat.lt_trans (hbound _ hin) (Nat.lt_succ_self _)
          · simp only [List.mem_singleton] at hin
            simp [hin]
        · have h1 := List.nodup_cons.mp hnodup
          have hfr : ¬r = m.fresh := fun e => hfreshnot (by simp [← e])
          have hfq : m.fresh ∉ qs :=
            fun hmem => hfreshnot (List.mem_cons_of_mem r hmem)
          simp [List.nodup_append, h1.1, h1.2, hfr, hfq]
        · simp [hsize]
        · intro _
          exact ⟨hinit, (List.getLast?_concat _).symm⟩
      · intro r' hnotin hnefresh
        have hrq : r' ≠ q := fun e => hnotin (e ▸ hqmem)
        rw [heapGet_set_ne _ _ hrq, heapGet_set_ne _ _ hnefresh]

theorem listRepr_toList_size {α : Type} [DecidableEq α] (m : Mem α)
    (l : SingleLinkedList) (ps : List Ptr) (vs : List α)
    (hr : ListRepr m l ps vs) :
    toList m l = some vs ∧ GetSize l = vs.length := by
  obtain ⟨hc, hbound, hnodup, hsize, hlast⟩ := hr
  constructor
  · exact toListAux_of_isChain m.heap ps (m.heap.length + 1) l.head_next vs hc
      (Nat.le_trans (chain_length_le_heap m.heap ps l.head_next vs hc hnodup)
        (Nat.le_succ _))
  · rw [GetSize, hsize, isChain_length m.heap ps l.head_next vs hc]

theorem listRepr_new {α : Type} [DecidableEq α] (m : Mem α) :
    ListRepr m SingleLinkedList.new [] [] :=
  ⟨rfl, by simp, by simp, rfl, by simp⟩

theorem setSLL_listRepr {α : Type} [DecidableEq α] :
    ∀ (S : List α) (m : Mem α) (l : SingleLinkedList) (ps : List Ptr)
      (vs : List α), ListRepr m l ps vs →
      ∃ m' l' ps', SetSingleLinkedList m l S = some (m', l') ∧
        ListRepr m' l' ps' (vs ++ S) := by
  intro S
  induction S with
  | nil =>
    intro m l ps vs hr
    exact ⟨m, l, ps, rfl, by simpa using hr⟩
  | cons v S ih =>
    intro m l ps vs hr
    obtain ⟨m1, l1, hpb, hrep1, _, _⟩ := pushBack_listRepr m l v ps vs hr
    obtain ⟨m', l', ps', hset, hrep'⟩ := ih m1 l1 _ _ hrep1
    refine ⟨m', l', ps', ?_, ?_⟩
    · simp [SetSingleLinkedList, hpb, hset]
    · rw [List.append_cons]
      exact hrep'

theorem copyGo_listRepr {α : Type} [DecidableEq α] :
    ∀ (psS : List Ptr) (vsS : List α) (fuel : Nat) (m : Mem α)
      (l : SingleLinkedList) (ps : List Ptr) (vs : List α)
      (start : Option Ptr),
      isChain m.heap start psS vsS = true →
      (∀ q ∈ psS, q < m.fresh) →
      ListRepr m l ps vs →
      (∀ q ∈ psS, q ∉ ps) →
      psS.length ≤ fuel →
      ∃ m' l' ps', copyGo fuel m l start = some (m', l') ∧
        ListRepr m' l' ps' (vs ++ vsS) := by
  intro psS
  induction psS with
  | nil =>
    intro vsS fuel m l ps vs start hcS _ hr _ _
    cases vsS with
    | cons w ws => simp [isChain] at hcS
    | nil =>
      have hstart : start = none := by simpa [isChain] using hcS
      subst hstart
      refine ⟨m, l, ps, ?_, by simpa using hr⟩
      cases fuel <;> rfl
  | cons r rest ih =>
    intro vsS fuel m l ps vs start hcS hboundS hr hdisj hfuel
    cases vsS with
    | nil => simp [isChain] at hcS
    | cons w ws =>
      simp only [isChain, Bool.and_eq_true, decide_eq_true_eq] at hcS
      obtain ⟨hstart, hrest⟩ := hcS
      cases hrg : heapGet m.heap r with
      | none => rw [hrg] at hrest; simp at hrest
      | some nd =>
        rw [hrg] at hrest
        simp only [Bool.and_eq_true, decide_eq_true_eq] at hrest
        obtain ⟨hval, hchain⟩ := hrest
        subst hstart
        cases fuel with
        | zero => exact absurd hfuel (by simp)
        | succ f =>
          obtain ⟨m1, l1, hpb, hrep1, hfresh1, hframe⟩ :=
            pushBack_listRepr m l nd.value ps vs hr
          have hagree : ∀ q ∈ rest, heapGet m1.heap q = heapGet m.heap q := by
            intro q hq
            exact hframe q (hdisj q (List.mem_cons_of_mem r hq))
              (Nat.ne_of_lt (hboundS q (List.mem_cons_of_mem r hq)))
          have hchain1 : isChain m1.heap nd.next_node rest ws = true :=
            isChain_congr m.heap m1.heap rest nd.next_node ws hagree hchain
          have hboundS1 : ∀ q ∈ rest, q < m1.fresh := by
            intro q hq
            rw [hfresh1]
            exact Nat.lt_trans (hboundS q (List.mem_cons_of_mem r hq))
              (Nat.lt_succ_self _)
          have hdisj1 : ∀ q ∈ rest, q ∉ ps ++ [m.fresh] := by
            intro q hq hmem
            rcases List.mem_append.mp hmem with hin | hin
            · exact hdisj q (List.mem_cons_of_mem r hq) hin
            · simp only [List.mem_singleton] at hin
              exact Nat.ne_of_lt (hboundS q (List.mem_cons_of_mem r hq)) hin
          obtain ⟨m', l', ps', hgo, hrep'⟩ := ih ws f m1 l1 (ps ++ [m.fresh])
            (vs ++ [nd.value]) nd.next_node hchain1 hboundS1 hrep1 hdisj1
            (Nat.le_of_succ_le_succ (by simpa using hfuel))
          refine ⟨m', l', ps', ?_, ?_⟩
          · simp [copyGo, hrg, hpb, hgo]
          · rw [List.append_cons, ← hval]
            exact hrep'

theorem opEq_eq_decide {α : Type} [DecidableEq α] (m : Mem α)
    (A B : SingleLinkedList) (psA : List Ptr) (as : List α)
    (psB : List Ptr) (bs : List α)
    (hA : ListRepr m A psA as) (hB : ListRepr m B psB bs) :
    opEq m A B = some (decide (as = bs)) := by
  obtain ⟨hcA, _, hnodupA, _, _⟩ := hA
  obtain ⟨hcB, _, _, _, _⟩ := hB
  exact stdEqualGo_of_chains m.heap psA (m.heap.length + 1) A.head_next
    B.head_next as bs psB hcA hcB
    (Nat.le_trans (chain_length_le_heap m.heap psA A.head_next as hcA hnodupA)
      (Nat.le_succ _))

theorem forall2_eq_iff_eq {α : Type} (as bs : List α) :
    List.Forall₂ (fun x y => x = y) as bs ↔ as = bs := by
  constructor
  · intro h
    induction h with
    | nil => rfl
    | cons h1 _ ih => simp [h1, ih]
  · rintro rfl
    exact List.forall₂_refl _

/-- Claim C1: after every insertion or removal operation the tail pointer
is the real node with null successor, or null on the empty list.  The
code violates this: InsertAfter never updates last, so inserting after
the current tail (here: PushFront 1 onto the empty list, then InsertAfter
at begin with 2) leaves last on the old tail, whose successor is now the
new node, and the check fails. -/
theorem C1_insertAfter_breaks_tail_invariant :
    (let s := PushFront m0 SingleLinkedList.new 1
     (InsertAfter s.1 s.2 (begin s.2) 2).map
       (fun r => tailOk r.1 r.2.1))
    = some false := rfl

/-- Claim C2: EraseAfter deallocates the successor node, relinks, returns
the iterator to the new successor, and decrements size.  On the list
built from [1, 2], erasing after before_begin does deallocate node 0
(heapGet yields none), does relink (iteration gives [2]) and does return
the iterator to node 1, but GetSize still reports 2: the code never
decrements size_, refuting the claim as stated. -/
theorem C2_eraseAfter_keeps_old_size :
    ((ofList m0 [1, 2]).bind
        (fun s => EraseAfter s.1 s.2 (before_begin s.2))).map
      (fun r => (GetSize r.2.1, toList r.1 r.2.1, heapGet r.1.heap 0, r.2.2))
    = some (2, some [2], none, BasicIterator.node 1) := rfl

/-- Claim C3: PopFront deallocates the head node, relinks the sentinel
successor and decrements the count.  On the list built from [1, 2],
PopFront deallocates node 0 and relinks (iteration gives [2]), but
GetSize still reports 2: the code never decrements size_. -/
theorem C3_popFront_keeps_old_size :
    ((ofList m0 [1, 2]).bind (fun s => PopFront s.1 s.2)).map
      (fun r => (GetSize r.2, toList r.1 r.2, heapGet r.1.heap 0))
    = some (2, some [2], none) := rfl

/-- Claim C4: the end-to-end example.  Building from [1, 2, 3], then
InsertAfter at before_begin with 0, then EraseAfter at begin, then
PopFront produces exactly the claimed iteration sequences [0, 1, 2, 3],
[0, 2, 3] and [2, 3], but the final size query returns 4, not the claimed
2, because neither EraseAfter nor PopFront decrements size_. -/
theorem C4_example_sequences_right_size_wrong :
    ((ofList m0 [1, 2, 3]).bind fun s0 =>
      (InsertAfter s0.1 s0.2 (before_begin s0.2) 0).bind fun s1 =>
      (EraseAfter s1.1 s1.2.1 (begin s1.2.1)).bind fun s2 =>
      (PopFront s2.1 s2.2.1).map fun s3 =>
        (toList s1.1 s1.2.1, toList s2.1 s2.2.1, toList s3.1 s3.2,
         GetSize s3.2))
    = some (some [0, 1, 2, 3], some [0, 2, 3], some [2, 3], 4) := rfl

/-- Claim C5: swap exchanges the counts, the head successors and the tail
pointers.  With A built from [1, 2] (tail at node 1) and B built from
[5] (tail at node 2), swap does exchange counts and head successors, but
both lists keep their own last pointer: the code swaps only size_ and
head_.next_node, so after the swap A.last is still node 1, which now
belongs to the chain of B. -/
theorem C5_swap_leaves_tail_pointers_in_place :
    ((ofList m0 [1, 2]).bind fun sA =>
      (SetSingleLinkedList sA.1 SingleLinkedList.new [5]).map fun sB =>
        let p := SingleLinkedList.swap sA.2 sB.2
        (GetSize p.1, GetSize p.2, p.1.head_next, p.2.head_next,
         p.1.last, p.2.last, sA.2.last, sB.2.last))
    = some (1, 2, some 2, some 0, some 1, some 2, some 1, some 2) := rfl

/-- Claim C6: a default-constructed list has count zero, null sentinel
successor and null tail pointer.  Count and sentinel successor hold, but
the member Node* last has no initializer and the constructor does not
assign it, so the tail pointer is indeterminate rather than null
(last_init = false), and the program InsertAfter(before_begin, 1) then
PushBack 2 reads the indeterminate pointer: undefined behavior (none). -/
theorem C6_default_tail_pointer_indeterminate :
    GetSize SingleLinkedList.new = 0 ∧
    SingleLinkedList.new.head_next = none ∧
    SingleLinkedList.new.last_init = false ∧
    ((InsertAfter m0 SingleLinkedList.new
        (before_begin SingleLinkedList.new) 1).bind
      fun s => PushBack s.1 s.2.1 2) = none :=
  ⟨rfl, rfl, rfl, rfl⟩

/-- Claim C7: InsertAfter at before_begin is equivalent to PushFront,
including the tail pointer.  On the empty list both produce the sequence
[1] with count 1, but PushFront (via SetFirstNode) sets the tail pointer
to the new node while InsertAfter leaves it untouched, so the resulting
list states differ in the tail pointer. -/
theorem C7_insertAfter_pushFront_differ_on_tail :
    (let pf := PushFront m0 SingleLinkedList.new 1
     let ia := InsertAfter m0 SingleLinkedList.new
       (before_begin SingleLinkedList.new) 1
     (toList pf.1 pf.2, GetSize pf.2, pf.2.last_init, pf.2.last,
      ia.map (fun s =>
        (toList s.1 s.2.1, GetSize s.2.1, s.2.1.last_init, s.2.1.last))))
    = (some [1], 1, true, some 0, some (some [1], 1, false, none)) := rfl

/-- Claim C10: end and cend return the null iterator, the default
constructed iterator is the null iterator, hence a default iterator
compares equal to the end iterator of any list and the end iterators of
any two lists compare equal. -/
theorem C10_end_and_default_iterators_null (l l1 l2 : SingleLinkedList) :
    end_ l = BasicIterator.null ∧ cend l = BasicIterator.null ∧
    iteratorDefault = BasicIterator.null ∧
    iterEq iteratorDefault (end_ l) = true ∧
    iterEq (end_ l1) (end_ l2) = true :=
  ⟨rfl, rfl, rfl, rfl, rfl⟩

/-- Claim C8: for every finite sequence S, constructing a list from S
(initializer-list construction, modelled by ofList, or copy construction
from a valid list holding S, modelled by copyOf) succeeds, iterating the
result yields exactly S in order, and GetSize returns the length of S. -/
theorem C8_construct_from_sequence (S : List Int) (m : Mem Int)
    (src : SingleLinkedList) (ps : List Ptr)
    (hsrc : ListRepr m src ps S) :
    (∃ r, ofList m S = some r ∧ toList r.1 r.2 = some S ∧
      GetSize r.2 = S.length) ∧
    (∃ r, copyOf m src = some r ∧ toList r.1 r.2 = some S ∧
      GetSize r.2 = S.length) := by
  constructor
  · obtain ⟨m', l', ps', hset, hrep'⟩ :=
      setSLL_listRepr S m SingleLinkedList.new [] [] (listRepr_new m)
    obtain ⟨ht, hs⟩ := listRepr_toList_size m' l' ps' _ hrep'
    refine ⟨(m', l'), hset, ?_, ?_⟩
    · simpa using ht
    · simpa using hs
  · obtain ⟨hc, hbound, hnodup, _, _⟩ := hsrc
    obtain ⟨m', l', ps', hgo, hrep'⟩ := copyGo_listRepr ps S
      (m.heap.length + 1) m SingleLinkedList.new [] [] src.head_next hc
      hbound (listRepr_new m) (by simp)
      (Nat.le_trans (chain_length_le_heap m.heap ps src.head_next S hc hnodup)
        (Nat.le_succ _))
    obtain ⟨ht, hs⟩ := listRepr_toList_size m' l' ps' _ hrep'
    refine ⟨(m', l'), hgo, ?_, ?_⟩
    · simpa using ht
    · simpa using hs

/-- Witness for C8: the hypotheses hold and the conclusion evaluates at
the concrete one-element list holding the sequence with just 1. -/
theorem C8_construct_from_sequence_witness :
    ListRepr mW lW [0] [1] ∧
    ((∃ r, ofList mW [1] = some r ∧ toList r.1 r.2 = some [1] ∧
        GetSize r.2 = 1) ∧
     (∃ r, copyOf mW lW = some r ∧ toList r.1 r.2 = some [1] ∧
        GetSize r.2 = 1)) :=
  ⟨by decide, C8_construct_from_sequence [1] mW lW [0] (by decide)⟩

/-- Claim C9: operator== holds between two valid lists exactly when their
element sequences have the same length and pairwise-equal elements in
order; equality is reflexive, symmetric and transitive; and any two lists
holding the same sequence, however each was built, compare equal (the
final conjunct). -/
theorem C9_operator_eq_characterisation (m : Mem Int)
    (A B C : SingleLinkedList) (psA : List Ptr) (as : List Int)
    (psB : List Ptr) (bs : List Int) (psC : List Ptr) (cs : List Int)
    (hA : ListRepr m A psA as) (hB : ListRepr m B psB bs)
    (hC : ListRepr m C psC cs) :
    (opEq m A B = some true ↔
      as.length = bs.length ∧ List.Forall₂ (fun x y => x = y) as bs) ∧
    opEq m A A = some true ∧
    (opEq m A B = some true → opEq m B A = some true) ∧
    (opEq m A B = some true → opEq m B C = some true →
      opEq m A C = some true) ∧
    (as = bs → opEq m A B = some true) := by
  have kAB := opEq_eq_decide m A B psA as psB bs hA hB
  have kAA := opEq_eq_decide m A A psA as psA as hA hA
  have kBA := opEq_eq_decide m B A psB bs psA as hB hA
  have kAC := opEq_eq_decide m A C psA as psC cs hA hC
  have kBC := opEq_eq_decide m B C psB bs psC cs hB hC
  have hiff : opEq m A B = some true ↔ as = bs := by
    rw [kAB]; simp
  refine ⟨?_, ?_, ?_, ?_, ?_⟩
  · rw [hiff]
    constructor
    · rintro rfl
      exact ⟨rfl, (forall2_eq_iff_eq as as).mpr rfl⟩
    · intro h
      exact (forall2_eq_iff_eq as bs).mp h.2
  · rw [kAA]; simp
  · intro hab
    have he : as = bs := hiff.mp hab
    rw [kBA, he]; simp
  · intro hab hbc
    have h1 : as = bs := hiff.mp hab
    have h2 : bs = cs := by
      rw [hbc] at kBC
      simpa using kBC.symm
    rw [kAC, h1, h2]; simp
  · intro he
    rw [kAB, he]; simp

/-- Witness for C9: the hypotheses hold at the concrete one-element list
and the reflexivity conclusion evaluates there. -/
theorem C9_operator_eq_characterisation_witness :
    ListRepr mW lW [0] [1] ∧ opEq mW lW lW = some true :=
  ⟨by decide, (C9_operator_eq_characterisation mW lW lW lW [0] [1] [0] [1]
      [0] [1] (by decide) (by decide) (by decide)).2.1⟩
